import Mathlib

/-!
Verification development for the filename-clustering pipeline of
`dev/fuzzy_test/fuzzy_explore.py` (the media_ingestion repository).

Files are modelled by their filename (a `String`); within one folder the
operating system guarantees distinct names, so the name is the file's
identity.  Python strings become Lean `String`s and character-level work
happens on `String.data`.  Python's `sorted` (a stable sort) is modelled by
a stable insertion sort `sSort`; Python's similarity scores are compared
only against integer thresholds, so the external `rapidfuzz.fuzz.ratio`
collaborator is modelled as an opaque parameter `ratio : String → String → Nat`
(the spec only promises a deterministic symmetric score in [0, 100]).
Floating-point threshold tests of the source (`len >= 0.5 * avg` and
`count / total >= 0.9`) are modelled by the exact integer inequalities
`sum <= 2 * len * n` and `9 * total <= 10 * count`, which agree with the
source's float tests for every list small enough to exist on disk: away
from equality the rational gap is at least `1 / (2 * n)` (resp. `1 / (10 * total)`),
astronomically larger than double rounding error, and at exact equality
both sides round exactly.
-/

namespace FuzzyExplore

/-! ### String ordering and sorting -/

/-- Code-point lexicographic order on character lists: Python's `<=` on
strings restricted to the comparisons the script performs. -/
def lexLe : List Char → List Char → Bool
  | [], _ => true
  | _ :: _, [] => false
  | a :: as, b :: bs =>
    if a.val < b.val then true
    else if b.val < a.val then false
    else lexLe as bs

/-- Python string `<=` (used as the `key=lambda p: p.name` sort order). -/
def strLe (a b : String) : Bool := lexLe a.data b.data

/-- Python sort key `(-len(s), s)`: longer strings first, ties broken
lexicographically ascending. -/
def lenLexLe (a b : String) : Bool :=
  decide (b.length < a.length) || (decide (a.length = b.length) && strLe a b)

/-- Stable insertion of `x` in front of the first element it is `le`-below:
the building block of the model of Python's stable `sorted`. -/
def sInsert (le : α → α → Bool) (x : α) : List α → List α
  | [] => [x]
  | y :: ys => if le x y then x :: y :: ys else y :: sInsert le x ys

/-- Stable sort modelling Python's `sorted(..., key=...)`. -/
def sSort (le : α → α → Bool) (l : List α) : List α := l.foldr (sInsert le) []

/-! ### Substring machinery (Python `in`, `str.find`, `str.startswith`) -/

/-- Python `pre + anything == s` test: `s.startswith(pre)`. -/
def startsWithB (s pre : String) : Bool := pre.data.isPrefixOf s.data

/-- Contiguous-substring test on character lists (Python `sub in s`). -/
def isInfixB (sub : List Char) : List Char → Bool
  | [] => sub.isEmpty
  | c :: cs => sub.isPrefixOf (c :: cs) || isInfixB sub cs

/-- Python `sub in s` on strings. -/
def containsSub (sub s : String) : Bool := isInfixB sub.data s.data

/-- Index of the leftmost occurrence of `sub` in `hay` (Python `str.find`,
with `none` standing for Python's `-1`). -/
def firstIdxOf (sub : List Char) : List Char → Option Nat
  | [] => if sub.isEmpty then some 0 else none
  | c :: cs =>
    if sub.isPrefixOf (c :: cs) then some 0
    else (firstIdxOf sub cs).map (fun i => i + 1)

/-! ### `pathlib` attributes: `Path.stem` and `Path.suffix` -/

/-- Index of the last `.` in a name, if any (Python `name.rfind(".")`). -/
def rlastDotIdx (cs : List Char) : Option Nat :=
  match cs.reverse.findIdx? (fun c => c == '.') with
  | none => none
  | some j => some (cs.length - 1 - j)

/-- `pathlib.PurePath.stem`: the name without its final extension; a name
whose only dot is leading or trailing keeps its full name as the stem. -/
def fileStem (name : String) : String :=
  let cs := name.data
  match rlastDotIdx cs with
  | none => name
  | some i => if 0 < i ∧ i + 1 < cs.length then String.mk (cs.take i) else name

/-- `pathlib.PurePath.suffix`: the final extension including the dot, or
the empty string. -/
def fileSuffix (name : String) : String :=
  let cs := name.data
  match rlastDotIdx cs with
  | none => ""
  | some i => if 0 < i ∧ i + 1 < cs.length then String.mk (cs.drop i) else ""

/-- Python `str.lower`, character by character (filenames are ASCII here). -/
def lowerStr (s : String) : String := String.mk (s.data.map Char.toLower)

/-- `VIDEO_EXTENSIONS = {".mp4", ".mkv", ".avi"}` (fuzzy_explore.py line 13). -/
def videoExts : List String := [".mp4", ".mkv", ".avi"]

/-- `ASSET_EXTENSIONS = {".jpg", ".jpeg", ".nfo"}` (line 14). -/
def assetExts : List String := [".jpg", ".jpeg", ".nfo"]

/-- `f.suffix.lower() in VIDEO_EXTENSIONS`. -/
def isVideoName (name : String) : Bool := videoExts.contains (lowerStr (fileSuffix name))

/-- `f.suffix.lower() in ASSET_EXTENSIONS`. -/
def isAssetName (name : String) : Bool := assetExts.contains (lowerStr (fileSuffix name))

/-! ### `_cluster_files` (lines 64-114): greedy seed-based clustering.

The `assigned_videos` / `assigned_assets` dictionaries are modelled as the
lists of names currently marked `True`; `other is seed` (Python object
identity) is name equality, since names are unique inside one folder. -/

/-- The inner video loop of one seed's pass (lines 81-89): walk the sorted
video list, skipping the seed and already-assigned entries, collecting
every video whose score against the seed meets the threshold and marking it
assigned.  Returns the collected members and the updated assigned list. -/
def gatherVids (ratio : String → String → Nat) (T : Nat) (seed : String) :
    List String → List String → List String × List String
  | [], assigned => ([], assigned)
  | o :: os, assigned =>
    if o = seed then gatherVids ratio T seed os assigned
    else if o ∈ assigned then gatherVids ratio T seed os assigned
    else if T ≤ ratio seed o then
      let r := gatherVids ratio T seed os (o :: assigned)
      (o :: r.1, r.2)
    else gatherVids ratio T seed os assigned

/-- The asset loop of one seed's pass (lines 92-98): like `gatherVids` but
with no seed-identity check. -/
def gatherAssets (ratio : String → String → Nat) (T : Nat) (seed : String) :
    List String → List String → List String × List String
  | [], assigned => ([], assigned)
  | o :: os, assigned =>
    if o ∈ assigned then gatherAssets ratio T seed os assigned
    else if T ≤ ratio seed o then
      let r := gatherAssets ratio T seed os (o :: assigned)
      (o :: r.1, r.2)
    else gatherAssets ratio T seed os assigned

/-- One seed's full pass (lines 77-98): the member list starts with the
seed, then the gathered videos, then the gathered assets.  Returns
`(members, assigned_videos, assigned_assets)`. -/
def seedPass (ratio : String → String → Nat) (T : Nat) (seed : String)
    (vids assets : List String) (aV aA : List String) :
    List String × List String × List String :=
  let rv := gatherVids ratio T seed vids aV
  let ra := gatherAssets ratio T seed assets aA
  (seed :: (rv.1 ++ ra.1), rv.2, ra.2)

/-- `Cluster` dataclass (lines 20-23). -/
structure PCluster where
  seed : String
  members : List String
deriving DecidableEq

/-- The outer seed loop of `_cluster_files` (lines 73-102): iterate the
sorted videos; an unassigned video becomes a seed (marked assigned *before*
its pass, line 78); a pass yielding at least two members is kept as a
cluster with name-sorted members (line 101-102), otherwise discarded.
Returns `(clusters, assigned_videos, assigned_assets)`. -/
def clusterLoop (ratio : String → String → Nat) (T : Nat)
    (vids assets : List String) :
    List String → List String → List String →
      List PCluster × List String × List String
  | [], aV, aA => ([], aV, aA)
  | s :: ss, aV, aA =>
    if s ∈ aV then clusterLoop ratio T vids assets ss aV aA
    else
      let p := seedPass ratio T s vids assets (s :: aV) aA
      let rest := clusterLoop ratio T vids assets ss p.2.1 p.2.2
      if 2 ≤ p.1.length then (⟨s, sSort strLe p.1⟩ :: rest.1, rest.2)
      else rest

/-- `_cluster_files` (lines 64-114): greedy clustering plus the final
singleton list (the files never marked assigned, name-sorted). -/
def clusterFiles (ratio : String → String → Nat) (T : Nat)
    (videoFiles assetFiles : List String) : List PCluster × List String :=
  let sv := sSort strLe videoFiles
  let r := clusterLoop ratio T sv (sSort strLe assetFiles) sv [] []
  let singles := (videoFiles.filter (fun v => !(r.2.1.contains v))) ++
      (assetFiles.filter (fun a => !(r.2.2.contains a)))
  (r.1, sSort strLe singles)

/-! ### `_longest_common_prefix` (lines 117-128) -/

/-- The trimming loop `while not s.startswith(prefix) and prefix: prefix =
prefix[:-1]`.  Each iteration drops the last character, so `pre.length`
steps of fuel always suffice; with the fuel exhausted `pre` is empty and
the loop has already stopped. -/
def trimGo (s : List Char) : Nat → List Char → List Char
  | 0, pre => if pre.isPrefixOf s then pre else []
  | n + 1, pre =>
    if pre.isPrefixOf s then pre
    else
      match pre with
      | [] => []
      | _ :: _ => trimGo s n pre.dropLast

/-- Trim `pre` from the right until it is a prefix of `s` (or empty). -/
def trimToMatch (s pre : List Char) : List Char := trimGo s pre.length pre

/-- `_longest_common_prefix`: start from the first string and trim against
each following one.  (The source's `if not prefix: break` is an early exit
with no effect on the result: trimming an empty prefix returns it.) -/
def lcp (strs : List String) : String :=
  match strs with
  | [] => ""
  | s :: rest => String.mk (rest.foldl (fun pre t => trimToMatch t.data pre) s.data)

/-! ### `_compute_core_and_decorations` (lines 149-167), core part -/

/-- Core extraction (lines 152-155): longest common prefix of the member
stems, falling back to the seed's stem when it is empty.  (The source also
guards `cluster.seed is not None`; every constructed `Cluster` carries a
seed, so the guard always passes.) -/
def computeCore (cl : PCluster) : String :=
  let g := lcp (cl.members.map fileStem)
  if g = "" then fileStem cl.seed else g

/-! ### Core collection, dedup, tiering (`_build_final_clusters` lines 181-210) -/

/-- Lines 182-186: cores of the initial clusters, dropping empty ones. -/
def coreCandidates (clusters : List PCluster) : List String :=
  clusters.filterMap (fun cl =>
    let g := computeCore cl
    if g = "" then none else some g)

/-- Line 189: `core_candidates = sorted(set(core_candidates))`. -/
def dedupedCores (clusters : List PCluster) : List String :=
  sSort strLe (coreCandidates clusters).dedup

/-- Total character length of the core list (numerator of `avg_len`). -/
def coreLenSum (cores : List String) : Nat := (cores.map String.length).sum

/-- Lines 196-201: `len(c) >= 0.5 * (sum / n)`, as the exact integer test
`sum <= 2 * len(c) * n` (see the header note on float fidelity). -/
def isNormalCore (cores : List String) (c : String) : Bool :=
  decide (coreLenSum cores ≤ 2 * c.length * cores.length)

/-- Lines 201 and 205: the normal tier, alphabetically ascending. -/
def normalTier (cores : List String) : List String :=
  sSort strLe (cores.filter (isNormalCore cores))

/-- Lines 202 and 208: the short tier (`len(c) < short_threshold`, the exact
complement of the normal test), longest first, ties alphabetical. -/
def shortTier (cores : List String) : List String :=
  sSort lenLexLe (cores.filter (fun c => !(isNormalCore cores c)))

/-- Line 210: `ordered_cores = normal_cores + short_cores`. -/
def orderedCores (clusters : List PCluster) : List String :=
  normalTier (dedupedCores clusters) ++ shortTier (dedupedCores clusters)

/-! ### Shared-substring mining (lines 213-273) -/

/-- All substrings `base[i:j]` with `j >= i + 2` (lines 231-234), possibly
with repetitions; the source stores them in a set, modelled by `dedup`
at the use site. -/
def substrs2 (s : String) : List String :=
  (s.data.tails.map (fun t =>
    (List.range' 2 (t.length - 1)).map (fun k => String.mk (t.take k)))).flatten

/-- Lines 236-240: intersect the running substring set with the substrings
shared with each further sampled core, stopping early when empty.  Because
the running set only ever contains substrings of the base core,
`current & _common_substrings(base, other)` is exactly the members of
`current` that occur in `other`. -/
def mineLoop : List String → List String → List String
  | cur, [] => cur
  | cur, o :: os =>
    let cur2 := cur.filter (fun s => containsSub s o)
    if cur2 = [] then cur2 else mineLoop cur2 os

/-- `_normalize_tag` (lines 248-256): strip leading and trailing
non-alphanumeric characters. -/
def normalizeTag (s : String) : String :=
  String.mk ((((s.data.dropWhile (fun c => !c.isAlphanum)).reverse.dropWhile
      (fun c => !c.isAlphanum)).reverse))

/-- Insertion-ordered dictionary update used to model `tag_map[norm] = sub`
on an existing key (Python dicts keep the key's position). -/
def alistUpd (k v : String) : List (String × String) → List (String × String)
  | [] => []
  | (k2, v2) :: rest =>
    if k2 = k then (k2, v) :: rest else (k2, v2) :: alistUpd k v rest

/-- Python `tag_map.get(norm)`. -/
def alistGet (k : String) : List (String × String) → Option String
  | [] => none
  | (k2, v2) :: rest => if k2 = k then some v2 else alistGet k rest

/-- The `tag_map` loop (lines 258-268): walk the sorted raw substrings,
skip those shorter than 3 characters or with an empty normalized form, and
keep the longest original substring for each normalized form. -/
def tagMapFold : List (String × String) → List String → List (String × String)
  | m, [] => m
  | m, sub :: rest =>
    if sub.length < 3 then tagMapFold m rest
    else
      let norm := normalizeTag sub
      if norm = "" then tagMapFold m rest
      else
        match alistGet norm m with
        | none => tagMapFold (m ++ [(norm, sub)]) rest
        | some prev =>
          if prev.length < sub.length then tagMapFold (alistUpd norm sub m) rest
          else tagMapFold m rest

/-- Lines 224-273: shared-substring mining over the normal cores.  The
sample is the first 5 normal cores; the base substring set comes from the
first, is intersected against the rest, sorted by `(-len, s)`, pushed
through the `tag_map` normalization, and the kept representatives are
sorted by `(-len, s)` again. -/
def minedShared : List String → List String
  | [] => []
  | base :: rest =>
    let others := rest.take 4
    let start := (substrs2 base).dedup
    let cur := mineLoop start others
    let raw := sSort lenLexLe cur
    let tm := tagMapFold [] raw
    sSort lenLexLe (tm.map (fun p => p.2))

/-! ### Final assignment (lines 275-318) -/

/-- Position of `s` in `ordered` (Python `ordered_cores.index(c)`; the
argument is always present). -/
def posOf (ordered : List String) (s : String) : Nat :=
  ordered.findIdx (fun x => x == s)

/-- Strictly-greater test on the sort key `(len(c), -ordered_cores.index(c))`
of line 288; Python `max` keeps the current best unless a later element's
key is strictly greater. -/
def keyBetter (ordered : List String) (y best : String) : Bool :=
  decide (best.length < y.length) ||
    (decide (y.length = best.length) &&
      decide (posOf ordered y < posOf ordered best))

/-- Lines 282-289: the cores that are a prefix of the stem, and among them
the one of maximal key (longest; first in order on a tie). -/
def bestCore (ordered : List String) (stem : String) : Option String :=
  match ordered.filter (fun c => startsWithB stem c) with
  | [] => none
  | m :: ms =>
    some (ms.foldl (fun best y => if keyBetter ordered y best then y else best) m)

/-- Line 290: `core_to_members[best_core].append(f)` groups the files by
their best core, keeping the file order; the list held under `c` is exactly
the files whose best core is `c`, in `all_files` order. -/
def coreMembers (ordered allFiles : List String) (c : String) : List String :=
  allFiles.filter (fun f => bestCore ordered (fileStem f) == some c)

/-- `FinalCluster` dataclass (lines 26-30). -/
structure FinalCluster where
  coreGuess : String
  members : List String
  videoCount : Nat
deriving DecidableEq

/-- Lines 293-306: one `FinalCluster` per ordered core that captured at
least one file, members name-sorted, with its video count. -/
def finalClustersOf (ordered allFiles : List String) : List FinalCluster :=
  ordered.filterMap (fun c =>
    match coreMembers ordered allFiles c with
    | [] => none
    | ms => some ⟨c, sSort strLe ms, (ms.filter isVideoName).length⟩)

/-- Lines 308-313: the files captured by no core (`f not in assigned_files`,
i.e. no ordered core is a prefix of the stem so `bestCore` is `none`),
name-sorted. -/
def finalSingletonsOf (ordered allFiles : List String) : List String :=
  sSort strLe (allFiles.filter (fun f => bestCore ordered (fileStem f) == none))

/-- Lines 176-179: `all_files = sorted(videos + assets, key=name)`. -/
def allFilesSorted (videoFiles assetFiles : List String) : List String :=
  sSort strLe (videoFiles ++ assetFiles)

/-- The 5-tuple returned by `_build_final_clusters` (line 318). -/
structure FinalResult where
  clusters : List FinalCluster
  singletons : List String
  allCores : List String
  normalCores : List String
  sharedSubstrings : List String
deriving DecidableEq

/-- `_build_final_clusters` (lines 170-318). -/
def buildFinalClusters (initialClusters : List PCluster)
    (videoFiles assetFiles : List String) : FinalResult :=
  let allFiles := allFilesSorted videoFiles assetFiles
  let cores := dedupedCores initialClusters
  if cores = [] then ⟨[], allFiles, [], [], []⟩
  else
    let ordered := orderedCores initialClusters
    ⟨finalClustersOf ordered allFiles, finalSingletonsOf ordered allFiles,
      cores, normalTier cores, minedShared (normalTier cores)⟩

/-- The first ordered core that is a prefix of the stem.  This follows the
claim's and spec's words ("assigned to the *first* core (in tiering order)
it matches") for comparison against the source's `bestCore`. -/
def firstMatching (ordered : List String) (stem : String) : Option String :=
  (ordered.filter (fun c => startsWithB stem c)).head?

/-! ### Significant-tag computation in `_write_report` (lines 390-512) -/

/-- `sum(1 for c in normal_cores if needle in c)` (line 411 / 500). -/
def coverCount (needle : String) (cores : List String) : Nat :=
  (cores.filter (fun c => containsSub needle c)).length

/-- Python sort key `(-ratio, -len(sub), sub)` of line 423; the total is
fixed, so descending ratio is descending count. -/
def infoLe (a b : String × Nat) : Bool :=
  decide (b.2 < a.2) || (decide (a.2 = b.2) && lenLexLe a.1 b.1)

/-- `_find_positions` (lines 451-458): the first occurrence index of `sub`
in each core; the source signals a missing occurrence by returning `[]`,
which its callers only ever test for emptiness — modelled as `none`. -/
def findPositions (sub : List Char) : List String → Option (List Nat)
  | [] => some []
  | c :: cs =>
    match firstIdxOf sub c.data with
    | none => none
    | some i =>
      match findPositions sub cs with
      | none => none
      | some ps => some (i :: ps)

/-- The leftwards expansion loop (lines 461-475): while every matching core
has the same character immediately before the current substring, prepend
it.  Each iteration grows `cur` by one character while `cur` keeps occurring
in every (nonempty list of) matching cores, so any fuel past the total core
length leaves the result unchanged; the indexing `core[pos - 1]` is always
in range, so the `getD` default is never consulted. -/
def expandLeft (matching : List String) : Nat → List Char → List Char
  | 0, cur => cur
  | fuel + 1, cur =>
    match findPositions cur matching with
    | none => cur
    | some ps =>
      if ps.isEmpty then cur
      else if ps.any (fun p => p == 0) then cur
      else
        match (matching.zip ps).map (fun cp => cp.1.data.getD (cp.2 - 1) ' ') with
        | [] => cur
        | ch :: restChars =>
          if restChars.all (fun c => c == ch) then
            expandLeft matching fuel (ch :: cur)
          else cur

/-- The rightwards expansion loop (lines 478-494), symmetric to
`expandLeft`. -/
def expandRight (matching : List String) : Nat → List Char → List Char
  | 0, cur => cur
  | fuel + 1, cur =>
    match findPositions cur matching with
    | none => cur
    | some ps =>
      if ps.isEmpty then cur
      else
        let ends := ps.map (fun p => p + cur.length)
        if (matching.zip ends).any (fun ce => decide (ce.1.length ≤ ce.2)) then cur
        else
          match (matching.zip ends).map (fun ce => ce.1.data.getD ce.2 ' ') with
          | [] => cur
          | ch :: restChars =>
            if restChars.all (fun c => c == ch) then
              expandRight matching fuel (cur ++ [ch])
            else cur

/-- Fuel that the expansion loops can never exhaust (see `expandLeft`). -/
def expandFuel (matching : List String) : Nat :=
  (matching.map String.length).sum + 1

/-- The significant-tag computation of `_write_report` (lines 390-512):
rank the mined substrings by `(-coverage, -len, s)`; the seed is the
normalized form of the top candidate (the loop over the top 5 takes the
first nonempty normalized form, and every ranked candidate has one); if the
seed covers at least 90% of the normal cores, expand it left and right
across the cores containing it, normalize, and report the result when it
still has length at least 3 and at least 90% coverage.  `ratio >= 0.9`
float tests become `9 * total <= 10 * count` (see the header note). -/
def sigTag (normalCores sharedSubstrings : List String) : Option String :=
  if sharedSubstrings.isEmpty then none
  else if normalCores.isEmpty then none
  else
    let total := normalCores.length
    let tagInfos := sharedSubstrings.filterMap (fun sub =>
      let norm := normalizeTag sub
      if norm = "" then none else some (sub, coverCount norm normalCores))
    match (sSort infoLe tagInfos).take 5 with
    | [] => none
    | (sub0, _) :: _ =>
      let seedNorm := normalizeTag sub0
      if seedNorm = "" then none
      else
        let matching := normalCores.filter (fun c => containsSub seedNorm c)
        if 9 * total ≤ 10 * matching.length ∧ matching ≠ [] then
          let fuel := expandFuel matching
          let expanded := expandRight matching fuel
            (expandLeft matching fuel seedNorm.data)
          let finalTag := normalizeTag (String.mk expanded)
          if finalTag ≠ "" ∧ 3 ≤ finalTag.length then
            if 9 * total ≤ 10 * coverCount finalTag normalCores then some finalTag
            else none
          else none
        else none

/-! ### The folder loop of `main` (lines 634-692)

Per-folder filesystem facts (existence, directory-ness, candidate files)
and the outcome of the report write are snapshots passed in as data; the
loop body mirrors `main`: the three skip conditions `continue`, and
`_write_report` (line 681) is called with no surrounding `try`, so a raised
write error propagates and terminates the loop. -/

structure FolderSpec where
  name : String
  pathExists : Bool
  isDir : Bool
  candidateFiles : List String
  writeSucceeds : Bool
deriving DecidableEq

/-- The folder loop of `main`: returns the names of the folders whose
report write was attempted, and whether the run aborted with an uncaught
exception from a report write. -/
def runFolders : List FolderSpec → List String × Bool
  | [] => ([], false)
  | f :: rest =>
    if !f.pathExists then runFolders rest
    else if !f.isDir then runFolders rest
    else if f.candidateFiles.isEmpty then runFolders rest
    else if f.writeSucceeds then
      let r := runFolders rest
      (f.name :: r.1, r.2)
    else ([f.name], true)

/-! ### Concrete inputs used by counterexamples and witnesses -/

/-- A similarity function for the threshold-monotonicity counterexample:
symmetric by construction, valued in [0, 100]. -/
def simTable (a b : String) : Nat :=
  if (a = "a.mp4" ∧ b = "b.mp4") ∨ (a = "b.mp4" ∧ b = "a.mp4") then 85
  else if a = "b.mp4" ∨ b = "b.mp4" then 95
  else 50

/-- A similarity function scoring every pair 0. -/
def zeroRatio (_a _b : String) : Nat := 0

def cexVids : List String := ["a.mp4", "b.mp4", "c.mp4", "d.mp4"]

def cexAssets : List String := ["x.jpg"]

/-- Initial clusters whose cores are `"ab"` and `"abcdef"`. -/
def c1Init : List PCluster :=
  [⟨"ab1x.mp4", ["ab1x.mp4", "ab2x.mp4"]⟩,
   ⟨"abcdef1.mp4", ["abcdef1.mp4", "abcdef2.mp4"]⟩]

/-- Two normal cores sharing the substrings of `"xabc"`. -/
def c4Cores : List String := ["xabcy", "xabcz"]

/-- A cluster whose two member stems share no common prefix. -/
def c8Cluster : PCluster := ⟨"ax.mp4", ["ax.mp4", "by.mp4"]⟩

/-- Two processable folders, the first of which fails its report write. -/
def c9Folders : List FolderSpec :=
  [⟨"f1", true, true, ["a.mp4"], false⟩,
   ⟨"f2", true, true, ["b.mp4"], true⟩]

/-! ## General lemmas about the sorting model -/

theorem sInsert_perm (le : α → α → Bool) (x : α) (l : List α) :
    (sInsert le x l).Perm (x :: l) := by
  induction l with
  | nil => exact List.Perm.refl _
  | cons y ys ih =>
    by_cases h : le x y = true
    · simp [sInsert, h]
    · simp only [sInsert, h, if_false, Bool.false_eq_true]
      exact (ih.cons y).trans (List.Perm.swap x y ys)

theorem sSort_perm (le : α → α → Bool) (l : List α) : (sSort le l).Perm l := by
  induction l with
  | nil => exact List.Perm.refl _
  | cons x xs ih => exact (sInsert_perm le x (sSort le xs)).trans (ih.cons x)

theorem mem_sSort {le : α → α → Bool} {l : List α} {a : α} :
    a ∈ sSort le l ↔ a ∈ l := (sSort_perm le l).mem_iff

theorem count_sSort [DecidableEq α] (le : α → α → Bool) (l : List α) (a : α) :
    List.count a (sSort le l) = List.count a l := (sSort_perm le l).count_eq a

theorem nodup_sSort {le : α → α → Bool} {l : List α} (h : l.Nodup) :
    (sSort le l).Nodup := ((sSort_perm le l).nodup_iff).mpr h

theorem count_filter_eq [DecidableEq α] (p : α → Bool) (l : List α) (a : α) :
    List.count a (l.filter p) = if p a = true then List.count a l else 0 := by
  by_cases h : p a = true
  · rw [if_pos h]
    exact List.count_filter h
  · rw [if_neg h, List.count_eq_zero]
    intro hmem
    exact h (List.mem_filter.mp hmem).2

/-! ## Tiering lemmas (claim C7) -/

theorem mem_normalTier {cores : List String} {c : String} :
    c ∈ normalTier cores ↔ c ∈ cores ∧ isNormalCore cores c = true := by
  unfold normalTier
  rw [mem_sSort, List.mem_filter]

theorem mem_shortTier {cores : List String} {c : String} :
    c ∈ shortTier cores ↔ c ∈ cores ∧ isNormalCore cores c = false := by
  unfold shortTier
  rw [mem_sSort, List.mem_filter]
  simp [Bool.not_eq_true']

/-- C7: every distinct core string is placed in exactly one tier, with the
normal tier characterized by the exact length bound
`sum <= 2 * len * n` (the source's `len >= 0.5 * avg_len`); the two tier
lists are disjoint and their union, as a set, is the deduplicated core
set. -/
theorem tiering_totality (init : List PCluster) :
    (∀ c, c ∈ dedupedCores init ↔
      (c ∈ normalTier (dedupedCores init) ∨ c ∈ shortTier (dedupedCores init))) ∧
    (∀ c, ¬(c ∈ normalTier (dedupedCores init) ∧ c ∈ shortTier (dedupedCores init))) ∧
    (∀ c, c ∈ normalTier (dedupedCores init) ↔
      (c ∈ dedupedCores init ∧
        coreLenSum (dedupedCores init) ≤ 2 * c.length * (dedupedCores init).length)) := by
  refine ⟨?_, ?_, ?_⟩
  · intro c
    constructor
    · intro hc
      by_cases hn : isNormalCore (dedupedCores init) c = true
      · exact Or.inl (mem_normalTier.mpr ⟨hc, hn⟩)
      · exact Or.inr (mem_shortTier.mpr ⟨hc, Bool.not_eq_true _ ▸ hn⟩)
    · intro hc
      rcases hc with h | h
      · exact (mem_normalTier.mp h).1
      · exact (mem_shortTier.mp h).1
  · intro c hc
    have h1 := (mem_normalTier.mp hc.1).2
    have h2 := (mem_shortTier.mp hc.2).2
    rw [h1] at h2
    cases h2
  · intro c
    rw [mem_normalTier]
    unfold isNormalCore
    rw [decide_eq_true_iff]

/-- C7 witness: a concrete core lands in one of the two tiers. -/
theorem tiering_totality_witness :
    "ab" ∈ normalTier (dedupedCores c1Init) ∨
      "ab" ∈ shortTier (dedupedCores c1Init) :=
  ((tiering_totality c1Init).1 "ab").mp (by decide)

/-! ## Core fallback (claim C8) -/

/-- C8: when the member stems of a provisional cluster have an empty
longest common prefix, the extracted core is the seed's stem; hence the
core is non-empty whenever the seed's stem is. -/
theorem core_fallback (cl : PCluster)
    (h : lcp (cl.members.map fileStem) = "") :
    computeCore cl = fileStem cl.seed ∧
      (fileStem cl.seed ≠ "" → computeCore cl ≠ "") := by
  have h1 : computeCore cl = fileStem cl.seed := by
    unfold computeCore
    rw [h]
    simp
  exact ⟨h1, fun hne => h1 ▸ hne⟩

/-- C8 witness: `c8Cluster`'s member stems `"ax"` and `"by"` share no
prefix, and the computed core is the seed stem `"ax"`, non-empty. -/
theorem core_fallback_witness :
    computeCore c8Cluster = "ax" ∧ computeCore c8Cluster ≠ "" := by
  have h := core_fallback c8Cluster (by decide)
  exact ⟨h.1.trans (by decide), h.2 (by decide)⟩

/-! ## Empty-core-list guard (claim C10) -/

/-- C10: with an empty deduplicated core list, `_build_final_clusters`
returns no clusters, no cores and every eligible file as a singleton
before any tier computation; the tier computation (whose denominator is
the number of distinct cores) is reached only when that number is
positive. -/
theorem empty_cores_guard (init : List PCluster) (vids assets : List String) :
    (dedupedCores init = [] →
      buildFinalClusters init vids assets =
        ⟨[], allFilesSorted vids assets, [], [], []⟩) ∧
    (dedupedCores init ≠ [] → 0 < (dedupedCores init).length) := by
  constructor
  · intro h
    simp [buildFinalClusters, h]
  · intro h
    exact List.length_pos.mpr h

/-- C10 witness: no initial clusters means no cores, and the single video
file comes back as a singleton. -/
theorem empty_cores_guard_witness :
    buildFinalClusters [] ["a.mp4"] [] =
      ⟨[], allFilesSorted ["a.mp4"] [], [], [], []⟩ :=
  (empty_cores_guard [] ["a.mp4"] []).1 (by decide)

/-! ## Lone seeds vanish from the pairwise output (claim C5) -/

/-- C5 (code bug): a lone seed video is marked assigned when it starts its
pass (line 78 of the source) even though its one-member group is then
discarded, so it appears in neither the kept clusters nor the returned
singleton list — `_cluster_files` on a single video returns `([], [])`
where the claim (and spec section 4.2) says the video must be reported as
a singleton. -/
theorem lone_seed_not_singleton :
    clusterFiles zeroRatio 90 ["a.mp4"] [] = ([], []) ∧
      "a.mp4" ∉ (clusterFiles zeroRatio 90 ["a.mp4"] []).2 := by
  decide

/-! ## Report-write failure aborts the run (claim C9) -/

/-- C9 (code bug): `main` wraps `_write_report` in no `try`, so a failed
report write propagates and the loop dies: with two processable folders
where the first write fails, only the first folder is ever attempted and
the run aborts — the claim (and spec section 7) requires the second
folder still to get its own report attempt. -/
theorem report_failure_aborts :
    runFolders c9Folders = (["f1"], true) ∧ "f2" ∉ (runFolders c9Folders).1 := by
  decide

/-! ## Final assignment is longest-match, not first-match (claim C1) -/

/-- C1 counterexample: with ordered cores `["ab", "abcdef"]` (both normal
tier), the file `abcdefX.mp4` matches both; the first core in tiering
order is `"ab"`, yet the built cluster places the file under `"abcdef"` —
the source picks the longest matching core (line 286-289), not the first. -/
theorem final_assign_first_match_cex :
    firstMatching (orderedCores c1Init) "abcdefX" = some "ab" ∧
    (buildFinalClusters c1Init ["abcdefX.mp4"] []).clusters =
      [⟨"abcdef", ["abcdefX.mp4"], 1⟩] ∧
    ("ab" : String) ≠ "abcdef" := by
  decide

/-- C1 amended, helper: the fold implementing Python `max(..., key=...)`
returns an element of the candidate list. -/
theorem foldPick_mem (ordered : List String) (m : String) (ms : List String) :
    ms.foldl (fun best y => if keyBetter ordered y best then y else best) m ∈ m :: ms := by
  induction ms generalizing m with
  | nil => exact List.mem_cons_self m []
  | cons y ys ih =>
    simp only [List.foldl_cons]
    rcases List.mem_cons.mp (ih (if keyBetter ordered y m then y else m)) with h | h
    · rw [h]
      split
      · exact List.mem_cons_of_mem m (List.mem_cons_self y ys)
      · exact List.mem_cons_self m (y :: ys)
    · exact List.mem_cons_of_mem m (List.mem_cons_of_mem y h)

/-- C1 amended, helper: no candidate is longer than the fold's pick. -/
theorem foldPick_len (ordered : List String) (m : String) (ms : List String) :
    ∀ y ∈ m :: ms, y.length ≤
      (ms.foldl (fun best y => if keyBetter ordered y best then y else best) m).length := by
  induction ms generalizing m with
  | nil =>
    intro y hy
    rcases List.mem_cons.mp hy with h | h
    · rw [h]
      exact Nat.le_refl _
    · cases h
  | cons z zs ih =>
    intro y hy
    simp only [List.foldl_cons]
    have hm : m.length ≤ (if keyBetter ordered z m then z else m).length := by
      by_cases hk : keyBetter ordered z m = true
      · rw [if_pos hk]
        unfold keyBetter at hk
        rcases Bool.or_eq_true _ _ ▸ hk with h1 | h1
        · exact Nat.le_of_lt (of_decide_eq_true h1)
        · exact Nat.le_of_eq (of_decide_eq_true (Bool.and_eq_true _ _ ▸ h1).1).symm
      · rw [if_neg hk]
    have hz : z.length ≤ (if keyBetter ordered z m then z else m).length := by
      by_cases hk : keyBetter ordered z m = true
      · rw [if_pos hk]
      · rw [if_neg hk]
        unfold keyBetter at hk
        have h1 : decide (m.length < z.length) = false := by
          cases hd : decide (m.length < z.length)
          · rfl
          · exact absurd (by rw [hd, Bool.true_or]) hk
        exact Nat.le_of_not_lt (of_decide_eq_false h1)
    have hhead := ih (if keyBetter ordered z m then z else m)
      (if keyBetter ordered z m then z else m)
      (List.mem_cons_self _ zs)
    rcases List.mem_cons.mp hy with h | h
    · rw [h]
      exact le_trans hm hhead
    · rcases List.mem_cons.mp h with h2 | h2
      · rw [h2]
        exact le_trans hz hhead
      · exact ih (if keyBetter ordered z m then z else m) y (List.mem_cons_of_mem _ h2)

/-- C1 amended, helper: what `bestCore` returns is an ordered core that is
a prefix of the stem and is at least as long as every ordered core that is
a prefix of the stem. -/
theorem bestCore_spec {ordered : List String} {st c : String}
    (h : bestCore ordered st = some c) :
    c ∈ ordered ∧ startsWithB st c = true ∧
      ∀ c2 ∈ ordered, startsWithB st c2 = true → c2.length ≤ c.length := by
  unfold bestCore at h
  rcases hfil : ordered.filter (fun x => startsWithB st x) with _ | ⟨m, ms⟩
  · rw [hfil] at h
    cases h
  · rw [hfil] at h
    have hc : c = ms.foldl (fun best y => if keyBetter ordered y best then y else best) m := by
      injection h with h2
      exact h2.symm
    have hmem : c ∈ m :: ms := hc ▸ foldPick_mem ordered m ms
    rw [← hfil] at hmem
    have hmem2 := List.mem_filter.mp hmem
    refine ⟨hmem2.1, hmem2.2, ?_⟩
    intro c2 hc2 hsw
    have : c2 ∈ m :: ms := by
      rw [← hfil]
      exact List.mem_filter.mpr ⟨hc2, hsw⟩
    exact hc ▸ foldPick_len ordered m ms c2 this

/-- C1 amended: every file placed in a final cluster has that cluster's
core as a stem prefix, and no ordered core that is a prefix of the stem is
longer — each file goes to the *longest* matching core (first in tiering
order only among equal-length matches, which prefix matching makes
impossible), not to the first matching core. -/
theorem final_assign_longest (init : List PCluster) (vids assets : List String) :
    ∀ cl ∈ (buildFinalClusters init vids assets).clusters, ∀ f ∈ cl.members,
      startsWithB (fileStem f) cl.coreGuess = true ∧
      ∀ c ∈ orderedCores init, startsWithB (fileStem f) c = true →
        c.length ≤ cl.coreGuess.length := by
  intro cl hcl f hf
  by_cases hc : dedupedCores init = []
  · simp [buildFinalClusters, hc] at hcl
  · have hcl2 : cl ∈ finalClustersOf (orderedCores init) (allFilesSorted vids assets) := by
      simpa [buildFinalClusters, hc] using hcl
    obtain ⟨ccore, hcore_mem, heq⟩ := List.mem_filterMap.mp hcl2
    rcases hms : coreMembers (orderedCores init) (allFilesSorted vids assets) ccore
      with _ | ⟨m0, ms0⟩
    · rw [hms] at heq
      cases heq
    · rw [hms] at heq
      injection heq with heq2
      subst heq2
      have hf2 : f ∈ coreMembers (orderedCores init) (allFilesSorted vids assets) ccore := by
        rw [hms]
        exact mem_sSort.mp hf
      have hb := (List.mem_filter.mp hf2).2
      have hbest : bestCore (orderedCores init) (fileStem f) = some ccore := eq_of_beq hb
      obtain ⟨_, hsw, hmax⟩ := bestCore_spec hbest
      exact ⟨hsw, hmax⟩

/-- C1 amended witness: the file `abcdefX.mp4` in the cluster with core
`"abcdef"` starts with that core, and the shorter matching core `"ab"` is
not longer. -/
theorem final_assign_longest_witness :
    startsWithB (fileStem "abcdefX.mp4") "abcdef" = true ∧
      ("ab" : String).length ≤ ("abcdef" : String).length := by
  have h := final_assign_longest c1Init ["abcdefX.mp4"] []
    ⟨"abcdef", ["abcdefX.mp4"], 1⟩ (by decide) "abcdefX.mp4" (by decide)
  exact ⟨h.1, h.2 "ab" (by decide) (by decide)⟩

/-! ## Threshold monotonicity fails globally (claim C3) -/

/-- C3 counterexample: with the symmetric integer-valued similarity
`simTable` on four videos and one asset, threshold 80 yields one cluster
of 2 files and 1 singleton while threshold 90 yields one cluster of 4
files and 0 singletons — raising the threshold both grew a cluster past
every lower-threshold cluster size and shrank the singleton count. -/
theorem threshold_mono_cex :
    ((clusterFiles simTable 80 cexVids cexAssets).1.map
        (fun cl => cl.members.length)) = [2] ∧
    (clusterFiles simTable 80 cexVids cexAssets).2.length = 1 ∧
    ((clusterFiles simTable 90 cexVids cexAssets).1.map
        (fun cl => cl.members.length)) = [4] ∧
    (clusterFiles simTable 90 cexVids cexAssets).2.length = 0 := by
  decide

/-! ## Significant tag is not the unique-coverage policy (claim C4) -/

/-- C4 counterexample: on the normal cores `["xabcy", "xabcz"]` the mined
substrings `"xabc"`, `"abc"` and `"xab"` each cover 100% ≥ 90% of the
tier, so under the claimed policy no significant tag may be reported; the
source still reports `"xabc"` (it expands the top-ranked candidate and
only checks that candidate's coverage, lines 420-505). -/
theorem sig_tag_unique_cex :
    minedShared c4Cores = ["xabc", "abc", "xab"] ∧
    9 * c4Cores.length ≤ 10 * coverCount "abc" c4Cores ∧
    9 * c4Cores.length ≤ 10 * coverCount "xab" c4Cores ∧
    ("abc" : String) ≠ "xab" ∧
    sigTag c4Cores (minedShared c4Cores) = some "xabc" := by
  decide

/-! ## Length-2 shared substrings are dropped (claim C6) -/

/-- C6 counterexample: with the single normal core `"ab"` the substring
`"ab"` has length 2 and occurs in every sampled core, so the claim puts it
in the mined set; the source's post-processing drops all substrings
shorter than 3 characters (line 260-261) and returns the empty list. -/
theorem mined_len2_cex :
    containsSub "ab" "ab" = true ∧ ("ab" : String).length = 2 ∧
      minedShared ["ab"] = [] := by
  decide

/-! ## The final clustering is a partition (claim C2) -/

/-- C2 helper: counting a file across the member lists of the clusters
built from an iteration list `L` of cores. -/
theorem count_flatten_clusters (ordered allFiles : List String) (f : String)
    (L : List String) :
    List.count f (((L.filterMap (fun c =>
        match coreMembers ordered allFiles c with
        | [] => none
        | ms => some (FinalCluster.mk c (sSort strLe ms)
            (ms.filter isVideoName).length))).map (fun cl => cl.members)).flatten)
      = List.countP (fun c => bestCore ordered (fileStem f) == some c) L *
          List.count f allFiles := by
  induction L with
  | nil => simp
  | cons c rest ih =>
    rw [List.filterMap_cons]
    rcases hms : coreMembers ordered allFiles c with _ | ⟨m0, ms0⟩
    · simp only [List.countP_cons]
      by_cases hb : (bestCore ordered (fileStem f) == some c) = true
      · have hz : List.count f allFiles = 0 := by
          rw [List.count_eq_zero]
          intro hmem
          have hin : f ∈ coreMembers ordered allFiles c :=
            List.mem_filter.mpr ⟨hmem, hb⟩
          rw [hms] at hin
          cases hin
        rw [ih, hz, Nat.mul_zero, Nat.mul_zero]
      · rw [ih, if_neg hb, Nat.add_zero]
    · rw [List.map_cons, List.flatten_cons, List.count_append, ih, List.countP_cons]
      have h1 : List.count f (sSort strLe (m0 :: ms0)) =
          if (bestCore ordered (fileStem f) == some c) = true
          then List.count f allFiles else 0 := by
        rw [count_sSort, ← hms]
        exact count_filter_eq _ _ _
      rw [h1]
      by_cases hb : (bestCore ordered (fileStem f) == some c) = true
      · rw [if_pos hb, if_pos hb, Nat.add_mul, Nat.one_mul, Nat.add_comm]
      · rw [if_neg hb, if_neg hb, Nat.zero_add, Nat.add_zero]

/-- C2 helper: on a duplicate-free list containing `a`, exactly one entry
is `beq`-equal to `a`. -/
theorem countP_beq_eq_one {l : List String} {a : String}
    (hnd : l.Nodup) (hmem : a ∈ l) :
    List.countP (fun c => a == c) l = 1 := by
  induction l with
  | nil => cases hmem
  | cons b rest ih =>
    obtain ⟨hb_nin, hnd2⟩ := List.nodup_cons.mp hnd
    rw [List.countP_cons]
    rcases List.mem_cons.mp hmem with rfl | hmem2
    · have hz : List.countP (fun c => a == c) rest = 0 := by
        rw [List.countP_eq_zero]
        intro x hx hbeq
        exact hb_nin (eq_of_beq hbeq ▸ hx)
      simp [hz]
    · have hne : a ≠ b := by
        intro he
        exact hb_nin (he ▸ hmem2)
      have hbeq : (a == b) = false := beq_eq_false_iff_ne.mpr hne
      simp [hbeq, ih hnd2 hmem2]

/-- C2 helper: the ordered core list carries no duplicates (it is the
deduplicated core set split by the complementary tier predicates). -/
theorem nodup_orderedCores (init : List PCluster) : (orderedCores init).Nodup := by
  unfold orderedCores
  have hnd : (dedupedCores init).Nodup := by
    unfold dedupedCores
    exact nodup_sSort (List.nodup_dedup _)
  refine List.Nodup.append ?_ ?_ ?_
  · exact nodup_sSort (List.Nodup.filter _ hnd)
  · exact nodup_sSort (List.Nodup.filter _ hnd)
  · intro a ha hb
    have h1 := (mem_normalTier.mp ha).2
    have h2 := (mem_shortTier.mp hb).2
    rw [h1] at h2
    cases h2

/-- C2: for duplicate-free eligible files, every eligible file is counted
exactly once across the union of all final cluster member lists and the
final singleton list — the result is a partition of the eligible files. -/
theorem final_partition (init : List PCluster) (vids assets : List String)
    (hnd : (vids ++ assets).Nodup) :
    ∀ f ∈ vids ++ assets,
      List.count f (((buildFinalClusters init vids assets).clusters.map
          (fun cl => cl.members)).flatten) +
        List.count f ((buildFinalClusters init vids assets).singletons) = 1 := by
  intro f hf
  have hcnt : List.count f (allFilesSorted vids assets) = 1 := by
    unfold allFilesSorted
    rw [count_sSort]
    exact List.count_eq_one_of_mem hnd hf
  by_cases hc : dedupedCores init = []
  · simp only [buildFinalClusters, hc, if_pos]
    simpa using hcnt
  · have hbc : (buildFinalClusters init vids assets).clusters
        = finalClustersOf (orderedCores init) (allFilesSorted vids assets) := by
      simp [buildFinalClusters, hc]
    have hbs : (buildFinalClusters init vids assets).singletons
        = finalSingletonsOf (orderedCores init) (allFilesSorted vids assets) := by
      simp [buildFinalClusters, hc]
    rw [hbc, hbs]
    have hflat := count_flatten_clusters (orderedCores init)
      (allFilesSorted vids assets) f (orderedCores init)
    have hsing : List.count f
        (finalSingletonsOf (orderedCores init) (allFilesSorted vids assets))
        = if (bestCore (orderedCores init) (fileStem f) == none) = true
          then List.count f (allFilesSorted vids assets) else 0 := by
      unfold finalSingletonsOf
      rw [count_sSort]
      exact count_filter_eq _ _ _
    have hfc : finalClustersOf (orderedCores init) (allFilesSorted vids assets)
        = (orderedCores init).filterMap (fun c =>
            match coreMembers (orderedCores init) (allFilesSorted vids assets) c with
            | [] => none
            | ms => some (FinalCluster.mk c (sSort strLe ms)
                (ms.filter isVideoName).length)) := rfl
    rw [hfc, hflat, hsing, hcnt]
    rcases hb : bestCore (orderedCores init) (fileStem f) with _ | c0
    · have hz : List.countP (fun c => (none : Option String) == some c)
          (orderedCores init) = 0 := by
        rw [List.countP_eq_zero]
        intro x _ hbeq
        cases hbeq
      simp [hz]
    · have hone : List.countP (fun c => c0 == c) (orderedCores init) = 1 :=
        countP_beq_eq_one (nodup_orderedCores init) (bestCore_spec hb).1
      simp [hone]

/-- C2 witness: with no initial clusters and one video file, that file is
counted exactly once across clusters and singletons. -/
theorem final_partition_witness :
    List.count "a.mp4" (((buildFinalClusters [] ["a.mp4"] []).clusters.map
        (fun cl => cl.members)).flatten) +
      List.count "a.mp4" ((buildFinalClusters [] ["a.mp4"] []).singletons) = 1 :=
  final_partition [] ["a.mp4"] [] (by decide) "a.mp4" (by decide)

/-- C3 amended, helper: raising the threshold can only shrink the video
members one seed pass gathers, as long as the two runs' assigned sets
agree on the videos still to be scanned (they always do when the scan list
is duplicate-free, because the sets only ever diverge on already-scanned
entries). -/
theorem gatherVids_mono (ratio : String → String → Nat) {T T' : Nat}
    (hT : T ≤ T') (seed : String) :
    ∀ os : List String, os.Nodup → ∀ aT aT' : List String,
      (∀ o ∈ os, o ∈ aT ↔ o ∈ aT') →
      ∀ f ∈ (gatherVids ratio T' seed os aT').1, f ∈ (gatherVids ratio T seed os aT).1 := by
  intro os
  induction os with
  | nil =>
    intro _ aT aT' _ f hf
    simp [gatherVids] at hf
  | cons o os ih =>
    intro hnd aT aT' hinv f hf
    obtain ⟨ho_nin, hnd2⟩ := List.nodup_cons.mp hnd
    have hinv2 : ∀ x ∈ os, x ∈ aT ↔ x ∈ aT' :=
      fun x hx => hinv x (List.mem_cons_of_mem o hx)
    by_cases h1 : o = seed
    · rw [gatherVids, if_pos h1] at hf ⊢
      exact ih hnd2 aT aT' hinv2 f hf
    · by_cases h2 : o ∈ aT
      · have h2' : o ∈ aT' := (hinv o (List.mem_cons_self o os)).mp h2
        rw [gatherVids, if_neg h1, if_pos h2'] at hf
        rw [gatherVids, if_neg h1, if_pos h2]
        exact ih hnd2 aT aT' hinv2 f hf
      · have h2' : o ∉ aT' := fun hmem => h2 ((hinv o (List.mem_cons_self o os)).mpr hmem)
        by_cases h3 : T' ≤ ratio seed o
        · have h3T : T ≤ ratio seed o := le_trans hT h3
          rw [gatherVids, if_neg h1, if_neg h2', if_pos h3] at hf
          rw [gatherVids, if_neg h1, if_neg h2, if_pos h3T]
          rcases List.mem_cons.mp hf with rfl | hf2
          · exact List.mem_cons_self _ _
          · refine List.mem_cons_of_mem _ (ih hnd2 (o :: aT) (o :: aT') ?_ f hf2)
            intro x hx
            rw [List.mem_cons, List.mem_cons, hinv2 x hx]
        · by_cases h4 : T ≤ ratio seed o
          · rw [gatherVids, if_neg h1, if_neg h2', if_neg h3] at hf
            rw [gatherVids, if_neg h1, if_neg h2, if_pos h4]
            refine List.mem_cons_of_mem _ (ih hnd2 (o :: aT) aT' ?_ f hf)
            intro x hx
            rw [List.mem_cons, hinv2 x hx]
            constructor
            · intro h
              rcases h with rfl | h
              · exact absurd hx ho_nin
              · exact h
            · exact Or.inr
          · rw [gatherVids, if_neg h1, if_neg h2', if_neg h3] at hf
            rw [gatherVids, if_neg h1, if_neg h2, if_neg h4]
            exact ih hnd2 aT aT' hinv2 f hf

/-- C3 amended, helper: the asset half of a seed pass, same monotonicity. -/
theorem gatherAssets_mono (ratio : String → String → Nat) {T T' : Nat}
    (hT : T ≤ T') (seed : String) :
    ∀ os : List String, os.Nodup → ∀ aT aT' : List String,
      (∀ o ∈ os, o ∈ aT ↔ o ∈ aT') →
      ∀ f ∈ (gatherAssets ratio T' seed os aT').1,
        f ∈ (gatherAssets ratio T seed os aT).1 := by
  intro os
  induction os with
  | nil =>
    intro _ aT aT' _ f hf
    simp [gatherAssets] at hf
  | cons o os ih =>
    intro hnd aT aT' hinv f hf
    obtain ⟨ho_nin, hnd2⟩ := List.nodup_cons.mp hnd
    have hinv2 : ∀ x ∈ os, x ∈ aT ↔ x ∈ aT' :=
      fun x hx => hinv x (List.mem_cons_of_mem o hx)
    by_cases h2 : o ∈ aT
    · have h2' : o ∈ aT' := (hinv o (List.mem_cons_self o os)).mp h2
      rw [gatherAssets, if_pos h2'] at hf
      rw [gatherAssets, if_pos h2]
      exact ih hnd2 aT aT' hinv2 f hf
    · have h2' : o ∉ aT' := fun hmem => h2 ((hinv o (List.mem_cons_self o os)).mpr hmem)
      by_cases h3 : T' ≤ ratio seed o
      · have h3T : T ≤ ratio seed o := le_trans hT h3
        rw [gatherAssets, if_neg h2', if_pos h3] at hf
        rw [gatherAssets, if_neg h2, if_pos h3T]
        rcases List.mem_cons.mp hf with rfl | hf2
        · exact List.mem_cons_self _ _
        · refine List.mem_cons_of_mem _ (ih hnd2 (o :: aT) (o :: aT') ?_ f hf2)
          intro x hx
          rw [List.mem_cons, List.mem_cons, hinv2 x hx]
      · by_cases h4 : T ≤ ratio seed o
        · rw [gatherAssets, if_neg h2', if_neg h3] at hf
          rw [gatherAssets, if_neg h2, if_pos h4]
          refine List.mem_cons_of_mem _ (ih hnd2 (o :: aT) aT' ?_ f hf)
          intro x hx
          rw [List.mem_cons, hinv2 x hx]
          constructor
          · intro h
            rcases h with rfl | h
            · exact absurd hx ho_nin
            · exact h
          · exact Or.inr
        · rw [gatherAssets, if_neg h2', if_neg h3] at hf
          rw [gatherAssets, if_neg h2, if_neg h4]
          exact ih hnd2 aT aT' hinv2 f hf

/-- C3 amended: global threshold monotonicity fails (see the
counterexample), but it does hold seed-by-seed — for one seed's pass over
fixed duplicate-free video and asset lists with the same pre-assigned
sets, every member the pass gathers at a higher threshold is also gathered
at a lower one, so raising the threshold never grows a fixed seed's
group. -/
theorem seedPass_threshold_mono (ratio : String → String → Nat) {T T' : Nat}
    (hT : T ≤ T') (seed : String) (vids assets : List String)
    (hv : vids.Nodup) (ha : assets.Nodup) (aV aA : List String) :
    ∀ f ∈ (seedPass ratio T' seed vids assets aV aA).1,
      f ∈ (seedPass ratio T seed vids assets aV aA).1 := by
  intro f hf
  simp only [seedPass, List.mem_cons, List.mem_append] at hf ⊢
  rcases hf with rfl | hf2 | hf2
  · exact Or.inl rfl
  · exact Or.inr (Or.inl
      (gatherVids_mono ratio hT seed vids hv aV aV (fun _ _ => Iff.rfl) f hf2))
  · exact Or.inr (Or.inr
      (gatherAssets_mono ratio hT seed assets ha aA aA (fun _ _ => Iff.rfl) f hf2))

/-- C3 amended witness: at thresholds 80 ≤ 90, the seed `a.mp4`'s own
membership at the higher threshold carries over to the lower one. -/
theorem seedPass_threshold_mono_witness :
    "a.mp4" ∈ (seedPass simTable 80 "a.mp4" cexVids cexAssets [] []).1 :=
  @seedPass_threshold_mono simTable 80 90 (by decide) "a.mp4" cexVids cexAssets
    (by decide) (by decide) [] [] "a.mp4" (by decide)

/-! ## Soundness of the mined shared substrings (claim C6 amended) -/

/-- The Boolean substring test agrees with list infixhood. -/
theorem isInfixB_iff {sub l : List Char} : isInfixB sub l = true ↔ sub <:+: l := by
  induction l with
  | nil =>
    simp [isInfixB, List.infix_nil, List.isEmpty_iff]
  | cons c cs ih =>
    simp [isInfixB, List.infix_cons_iff, List.isPrefixOf_iff_prefix, ih]

/-- Every generated substring of `b` really occurs in `b`. -/
theorem substrs2_sound {b s : String} (h : s ∈ substrs2 b) :
    containsSub s b = true := by
  unfold substrs2 at h
  rw [List.mem_flatten] at h
  obtain ⟨l, hl, hs⟩ := h
  rw [List.mem_map] at hl
  obtain ⟨t, ht, rfl⟩ := hl
  rw [List.mem_map] at hs
  obtain ⟨k, _, rfl⟩ := hs
  have htails : t <:+ b.data := (List.mem_tails t b.data).mp ht
  unfold containsSub
  rw [isInfixB_iff]
  exact ((List.take_prefix k t).isInfix).trans htails.isInfix

/-- Surviving the intersection loop means being in the start set and
occurring in every intersected core. -/
theorem mineLoop_sound {cur os : List String} {s : String}
    (h : s ∈ mineLoop cur os) :
    s ∈ cur ∧ ∀ o ∈ os, containsSub s o = true := by
  induction os generalizing cur with
  | nil =>
    exact ⟨h, by simp⟩
  | cons o os ih =>
    rw [mineLoop] at h
    by_cases hc : cur.filter (fun x => containsSub x o) = []
    · rw [if_pos hc, hc] at h
      cases h
    · rw [if_neg hc] at h
      obtain ⟨hfil, hrest⟩ := ih h
      obtain ⟨hmem, hsub⟩ := List.mem_filter.mp hfil
      refine ⟨hmem, ?_⟩
      intro x hx
      rcases List.mem_cons.mp hx with rfl | hx2
      · exact hsub
      · exact hrest x hx2

/-- Updating one key of the association list adds at most the new value. -/
theorem alistUpd_vals {k v : String} {m : List (String × String)} {s : String}
    (h : s ∈ (alistUpd k v m).map (fun p => p.2)) :
    s ∈ m.map (fun p => p.2) ∨ s = v := by
  induction m with
  | nil =>
    simp [alistUpd] at h
  | cons p rest ih =>
    rw [alistUpd] at h
    by_cases hk : p.1 = k
    · rw [if_pos hk] at h
      rw [List.map_cons, List.mem_cons] at h
      rcases h with rfl | h2
      · exact Or.inr rfl
      · exact Or.inl (List.mem_cons_of_mem _ h2)
    · rw [if_neg hk] at h
      rw [List.map_cons, List.mem_cons] at h
      rcases h with h2 | h2
      · exact Or.inl (h2 ▸ List.mem_cons_self _ _)
      · rcases ih h2 with h3 | h3
        · exact Or.inl (List.mem_cons_of_mem _ h3)
        · exact Or.inr h3

/-- Every value of the `tag_map` fold is either inherited or a raw
substring of length at least 3. -/
theorem tagMapFold_vals {raw : List String} :
    ∀ {m : List (String × String)} {s : String},
      s ∈ (tagMapFold m raw).map (fun p => p.2) →
      s ∈ m.map (fun p => p.2) ∨ (s ∈ raw ∧ 3 ≤ s.length) := by
  induction raw with
  | nil =>
    intro m s h
    exact Or.inl h
  | cons sub rest ih =>
    intro m s h
    rw [tagMapFold] at h
    by_cases h1 : sub.length < 3
    · rw [if_pos h1] at h
      rcases ih h with hm | ⟨hr, hl⟩
      · exact Or.inl hm
      · exact Or.inr ⟨List.mem_cons_of_mem _ hr, hl⟩
    · rw [if_neg h1] at h
      have hlen : 3 ≤ sub.length := Nat.le_of_not_lt h1
      by_cases h2 : normalizeTag sub = ""
      · rw [if_pos h2] at h
        rcases ih h with hm | ⟨hr, hl⟩
        · exact Or.inl hm
        · exact Or.inr ⟨List.mem_cons_of_mem _ hr, hl⟩
      · rw [if_neg h2] at h
        rcases hget : alistGet (normalizeTag sub) m with _ | prev
        · rw [hget] at h
          rcases ih h with hm | ⟨hr, hl⟩
          · rw [List.map_append, List.mem_append] at hm
            rcases hm with hm2 | hm2
            · exact Or.inl hm2
            · simp only [List.map_cons, List.map_nil, List.mem_singleton] at hm2
              exact Or.inr ⟨hm2 ▸ List.mem_cons_self _ _, hm2 ▸ hlen⟩
          · exact Or.inr ⟨List.mem_cons_of_mem _ hr, hl⟩
        · rw [hget] at h
          have h' : s ∈ List.map (fun p => p.2)
              (if prev.length < sub.length
               then tagMapFold (alistUpd (normalizeTag sub) sub m) rest
               else tagMapFold m rest) := h
          by_cases h3 : prev.length < sub.length
          · rw [if_pos h3] at h'
            rcases ih h' with hm | ⟨hr, hl⟩
            · rcases alistUpd_vals hm with hm2 | hm2
              · exact Or.inl hm2
              · exact Or.inr ⟨hm2 ▸ List.mem_cons_self _ _, hm2 ▸ hlen⟩
            · exact Or.inr ⟨List.mem_cons_of_mem _ hr, hl⟩
          · rw [if_neg h3] at h'
            rcases ih h' with hm | ⟨hr, hl⟩
            · exact Or.inl hm
            · exact Or.inr ⟨List.mem_cons_of_mem _ hr, hl⟩

/-- C6 amended: every element of the mined shared-substring list has
length at least 3 and occurs in every sampled core (the first up-to-5
normal cores); in particular length-2 shared substrings are never
returned. -/
theorem minedShared_sound (cores : List String) (s : String)
    (h : s ∈ minedShared cores) :
    3 ≤ s.length ∧ ∀ c ∈ cores.take 5, containsSub s c = true := by
  match cores with
  | [] =>
    rw [minedShared] at h
    cases h
  | base :: rest =>
    rw [minedShared] at h
    rw [mem_sSort] at h
    rcases tagMapFold_vals h with hm | ⟨hr, hlen⟩
    · simp at hm
    · rw [mem_sSort] at hr
      obtain ⟨hcur, hos⟩ := mineLoop_sound hr
      have hbase : containsSub s base = true :=
        substrs2_sound (List.mem_dedup.mp hcur)
      refine ⟨hlen, ?_⟩
      intro c hc
      have hc5 : c ∈ base :: rest.take 4 := hc
      rcases List.mem_cons.mp hc5 with rfl | hc2
      · exact hbase
      · exact hos c hc2

/-- C6 amended witness: `"xabc"` is mined from `c4Cores`, has length at
least 3 and occurs in both sampled cores. -/
theorem minedShared_sound_witness :
    3 ≤ ("xabc" : String).length ∧
      ∀ c ∈ c4Cores.take 5, containsSub "xabc" c = true :=
  minedShared_sound c4Cores "xabc" (by decide)

/-! ## Soundness of the reported significant tag (claim C4 amended) -/

/-- C4 amended: whenever the report declares a significant tag, that tag
is non-empty, at least 3 characters long, and covers at least 90% of the
full normal tier (`9 * total <= 10 * count`); uniqueness of a
high-coverage candidate is *not* required — see the counterexample.  The
reported tag is the normalized expansion of the top-ranked candidate, so
it need not equal any single mined substring. -/
theorem sigTag_sound (normalCores sharedSubstrings : List String) (t : String)
    (h : sigTag normalCores sharedSubstrings = some t) :
    t ≠ "" ∧ 3 ≤ t.length ∧
      9 * normalCores.length ≤ 10 * coverCount t normalCores := by
  simp only [sigTag] at h
  split at h
  · exact Option.noConfusion h
  split at h
  · exact Option.noConfusion h
  split at h
  · exact Option.noConfusion h
  split at h
  · exact Option.noConfusion h
  split at h
  · split at h
    · split at h
      · rename_i hguard1 _ hlen hcov
        injection h with h2
        subst h2
        exact ⟨hlen.1, hlen.2, hcov⟩
      · exact Option.noConfusion h
    · exact Option.noConfusion h
  · exact Option.noConfusion h

/-- C4 amended witness: on `c4Cores` the reported tag `"xabc"` is
non-empty, long enough, and covers the tier. -/
theorem sigTag_sound_witness :
    ("xabc" : String) ≠ "" ∧ 3 ≤ ("xabc" : String).length ∧
      9 * c4Cores.length ≤ 10 * coverCount "xabc" c4Cores :=
  sigTag_sound c4Cores (minedShared c4Cores) "xabc" (by decide)

end FuzzyExplore
